import Mathlib

/-!
Verification development for the file-storage gateway repository.

The Python sources under `src/app` are shallowly embedded: strings become
`List Char`, the `file_metadata` table becomes a list of rows, every
fallible effect (SQLAlchemy errors, storage-backend errors) is made
explicit through `Except` values or injected error oracles, and each
service workflow (`upload_service.upload_file_to_storage`,
`delete_service.soft_delete_file`, `delete_service.hard_delete_file`,
`file_metadata_repository.get_list`) becomes a pure function that also
reports the backend operations it attempted.
-/

set_option maxHeartbeats 1000000

/-- Text of a Python `str`, modelled as its list of characters. -/
abbrev Str := List Char

/-- Decimal rendering of a nonnegative integer, as interpolated by a Python
f-string such as f-string version interpolation in `upload_service.py` line 50. -/
def natStr (n : Nat) : Str := (Nat.repr n).toList

/-- Index of the last occurrence of `c` in the text, mirroring Python
`str.rfind` (which yields -1, here `none`, when the character is absent). -/
def lastIdxOf (c : Char) : Str → Option Nat
  | [] => none
  | x :: xs =>
    match lastIdxOf c xs with
    | some i => some (i + 1)
    | none => if x = c then some 0 else none

/-- `os.path.splitext` for POSIX paths, as used at `upload_service.py` line 50
and `delete_service.py` line 99.  CPython finds the last `/` and the last `.`;
the name splits at the last `.` only when that dot lies inside the basename
and at least one character of the basename before it is not a dot (so
hidden-file names such as `.bashrc` keep an empty extension). -/
def splitext (p : Str) : Str × Str :=
  match lastIdxOf '.' p with
  | none => (p, [])
  | some dotIdx =>
    let start : Nat :=
      match lastIdxOf '/' p with
      | none => 0
      | some sepIdx => sepIdx + 1
    if Nat.ble start dotIdx && ((p.drop start).take (dotIdx - start)).any (fun ch => ch != '.') then
      (p.take dotIdx, p.drop dotIdx)
    else (p, [])

/-- The version-qualified physical object name built at
`upload_service.py` line 50 and rebuilt at `delete_service.py` line 99:
the splitext base, an underscore, the decimal version, then the splitext
extension. -/
def physicalName (name : Str) (version : Nat) : Str :=
  (splitext name).1 ++ '_' :: (natStr version ++ (splitext name).2)

/-- Python `destination.strip("/")` from `upload_service.py` line 51:
removes every leading and every trailing `/`. -/
def stripSlash (s : Str) : Str :=
  ((s.dropWhile (fun ch => ch == '/')).reverse.dropWhile (fun ch => ch == '/')).reverse

/-- One step of `os.path.join` for relative POSIX components: an absolute
component resets the result, otherwise a `/` separator is inserted unless the
accumulated path is empty or already ends with `/`. -/
def joinOne (acc comp : Str) : Str :=
  if comp.head? == some '/' then comp
  else if acc.isEmpty || acc.getLast? == some '/' then acc ++ comp
  else acc ++ '/' :: comp

/-- `os.path.join(a, b, c)`, as in `FileStorage.upload` and
`FileStorage.delete` (`file_storage.py` lines 46 and 78). -/
def pathJoin3 (a b c : Str) : Str := joinOne (joinOne a b) c

/-- Whether `p` is a prefix of `s` (plain text comparison). -/
def strStartsWith : Str → Str → Bool
  | [], _ => true
  | _ :: _, [] => false
  | a :: as, b :: bs => a == b && strStartsWith as bs

/-- Lexicographic comparison of two texts, the order a SQL
`ORDER BY file_name` produces in the embedding. -/
def strLe : Str → Str → Bool
  | [], _ => true
  | _ :: _, [] => false
  | a :: as, b :: bs => if a < b then true else if a = b then strLe as bs else false

/-- SQL `LIKE` pattern matching with the standard wildcards: `%` matches any
sequence of characters and `_` matches exactly one character.  This is the
semantics of the `.contains(tag)` and `.like(f-pattern)` filters built in
`file_metadata_repository.get_list` (lines 243-249); neither call sets an
escape character. -/
def likeMatch : Str → Str → Bool
  | [], s => s.isEmpty
  | c :: ps, s =>
    if c = '%' then
      s.tails.any (fun t => likeMatch ps t)
    else
      match s with
      | [] => false
      | x :: s2 => (if c = '_' then true else c == x) && likeMatch ps s2

/-- Stable insertion of one element into a list ordered by `le`. -/
def insertLe (le : α → α → Bool) (x : α) : List α → List α
  | [] => [x]
  | y :: ys => if le x y then x :: y :: ys else y :: insertLe le x ys

/-- Insertion sort by `le`; models the `ORDER BY` clause applied by the
database when `get_list` attaches an ordering key. -/
def sortByLe (le : α → α → Bool) : List α → List α
  | [] => []
  | x :: xs => insertLe le x (sortByLe le xs)

/-- One row of the `file_metadata` table (`entity/file_metadata.py`).
Timestamps are wall-clock seconds. -/
structure FileMetadata where
  file_id : Nat
  file_name : Str
  file_path : Str
  file_size : Nat
  file_type : Str
  destination : Str
  version : Nat
  tags : Str
  description : Str
  user_id : Str
  is_deleted : Bool
  created_at : Nat
  updated_at : Nat
deriving DecidableEq

/-- The `file_metadata` table contents, in insertion order. -/
abbrev DB := List FileMetadata

/-- `StorageUploadResponseModel` (`model/upload_model.py`): what a backend
upload reports back. -/
structure StorageUploadResponseModel where
  file_path : Str
  file_size : Nat
  file_type : Str
deriving DecidableEq

/-- `FileDetailsModel` (`model/upload_model.py`), the projection the upload
service returns; `updated_at` keeps the numeric timestamp that the source
renders with `isoformat()`. -/
structure FileDetailsModel where
  file_name : Str
  file_size : Nat
  destination : Str
  updated_at : Nat
deriving DecidableEq

/-- `DeleteFileEnum` (`model/enum.py`). -/
inductive DeleteFileEnum where
  | DELETED
  | FILE_NOT_FOUND
  | ERROR
deriving DecidableEq

/-- The distinguishable exceptions raised by the embedded workflows:
`Failed to upload file: ...` and `Failed to save file metadata: ...` from
`upload_service.py` lines 61 and 101, a storage delete failure, and the
Python `TypeError` raised when a call passes the wrong number of
arguments. -/
inductive PyErr where
  | uploadFailed (cause : Str)
  | metadataPersistFailed (cause : Str)
  | storageDeleteFailed (cause : Str)
  | typeError (msg : Str)
deriving DecidableEq

/-- Observable side-effecting operations of a workflow run, in order:
backend construction (with its ensure-bucket effect), a storage upload, an
attempted storage delete (recording the argument list as passed), and the
committed database writes. -/
inductive Ev where
  | construct
  | storageUpload (name destination : Str)
  | storageDeleteAttempt (args : List Str)
  | dbCommitInsert (file_id : Nat)
  | dbCommitUpdate (file_id : Nat)
  | dbCommitDelete (file_id : Nat)
deriving DecidableEq

/-- The file the client sends (`fastapi.UploadFile`): its byte size and MIME
type, which are all the embedded backends consume. -/
structure FileModel where
  size : Nat
  content_type : Str
deriving DecidableEq

/-- Error oracle for the database layer: when a field is `some e`, the
corresponding SQLAlchemy call raises an error with that message (the
repository re-raises it after rollback, so the table is unchanged). -/
structure Env where
  lookupErr : Option Str
  persistErr : Option Str
  rowDeleteErr : Option Str
deriving DecidableEq

/-- An `Env` in which no database call fails. -/
def envOk : Env := ⟨none, none, none⟩

/-- WHERE clause of `get_file_by_name_and_destination`
(`file_metadata_repository.py` lines 124-128): name and destination match
and the row is not soft-deleted. -/
def activePred (n d : Str) (r : FileMetadata) : Bool :=
  r.file_name == n && r.destination == d && !r.is_deleted

/-- WHERE clause of `get_file_by_name_and_destination_for_hard_delete`
(`file_metadata_repository.py` lines 161-164): name and destination match,
soft-deleted rows included. -/
def anyPred (n d : Str) (r : FileMetadata) : Bool :=
  r.file_name == n && r.destination == d

/-- SQLAlchemy `Result.scalar_one_or_none`: `none` for no row, the row when
unique, and `MultipleResultsFound` when several rows match. -/
def scalarOneOrNone : List α → Except Str (Option α)
  | [] => .ok none
  | [x] => .ok (some x)
  | _ :: _ :: _ => .error "Multiple rows were found".toList

/-- `get_file_by_name_and_destination` (`file_metadata_repository.py`
lines 104-138): the active-row point lookup. -/
def get_file_by_name_and_destination (env : Env) (db : DB) (file_name destination : Str) :
    Except Str (Option FileMetadata) :=
  match env.lookupErr with
  | some e => .error e
  | none => scalarOneOrNone (db.filter (activePred file_name destination))

/-- `get_file_by_name_and_destination_for_hard_delete`
(`file_metadata_repository.py` lines 141-174): the lookup that also sees
soft-deleted rows. -/
def get_file_by_name_and_destination_for_hard_delete (env : Env) (db : DB)
    (file_name destination : Str) : Except Str (Option FileMetadata) :=
  match env.lookupErr with
  | some e => .error e
  | none => scalarOneOrNone (db.filter (anyPred file_name destination))

/-- SQLAlchemy `session.merge` followed by commit and refresh, the body of
repository `update` (`file_metadata_repository.py` lines 196-201): the row
carrying the same primary key is overwritten (the `onupdate=func.now()`
column default refreshes `updated_at`); a merge of an unknown key inserts. -/
def mergeRow (db : DB) (fm : FileMetadata) (now : Nat) : DB × FileMetadata :=
  let fm2 := { fm with updated_at := now }
  if db.any (fun r => r.file_id == fm.file_id) then
    (db.map (fun r => if r.file_id == fm.file_id then fm2 else r), fm2)
  else (db ++ [fm2], fm2)

/-- Repository `update` (`file_metadata_repository.py` lines 177-205):
merge-commit-refresh, or rollback leaving the table unchanged and the
error re-raised. -/
def update (env : Env) (db : DB) (fm : FileMetadata) (now : Nat) :
    Except Str (DB × FileMetadata) :=
  match env.persistErr with
  | some e => .error e
  | none => .ok (mergeRow db fm now)

/-- Largest primary key present, used to model the `autoincrement` key
assignment performed on insert. -/
def maxId (db : DB) : Nat := db.foldr (fun r m => max r.file_id m) 0

/-- Repository `insert` (`file_metadata_repository.py` lines 10-34):
add-commit-refresh assigns the autoincremented key and the server-default
timestamps; on error the transaction is rolled back and re-raised.  (Named
`insertRow` here only because `insert` is taken by the Lean library.) -/
def insertRow (env : Env) (db : DB) (fm : FileMetadata) (now : Nat) :
    Except Str (DB × FileMetadata) :=
  match env.persistErr with
  | some e => .error e
  | none =>
    let row := { fm with file_id := maxId db + 1, created_at := now, updated_at := now }
    .ok (db ++ [row], row)

/-- `get_list` (`file_metadata_repository.py` lines 208-256).  The query
keeps non-soft-deleted rows, attaches at most one `ORDER BY` key through the
`if/elif` chain (name, else size, else updated-at descending), then conjoins
the optional tag filter (`tags.contains(tag)`, i.e. `LIKE una-percent tag
percent`) and destination filter (exact equality OR
`LIKE destination slash percent`).  SQL applies the WHERE conjunction before
the ORDER BY, which is how the result is computed here; Python truthiness
makes an empty (or absent) filter a no-op. -/
def get_list (env : Env) (order_by_name order_by_size order_by_updated_at : Bool)
    (tag destination : Str) (db : DB) : Except Str (List FileMetadata) :=
  match env.lookupErr with
  | some e => .error e
  | none =>
    let rows := db.filter (fun r => !r.is_deleted)
    let rows := if tag.isEmpty then rows
      else rows.filter (fun r => likeMatch ('%' :: (tag ++ ['%'])) r.tags)
    let rows := if destination.isEmpty then rows
      else rows.filter (fun r =>
        r.destination == destination || likeMatch (destination ++ ['/', '%']) r.destination)
    if order_by_name then .ok (sortByLe (fun a b => strLe a.file_name b.file_name) rows)
    else if order_by_size then .ok (sortByLe (fun a b => Nat.ble a.file_size b.file_size) rows)
    else if order_by_updated_at then
      .ok (sortByLe (fun a b => Nat.ble b.updated_at a.updated_at) rows)
    else .ok rows

/-- A storage backend (`core/storage/storage_base.py`), abstracted over its
private state `σ` (the local directory tree, or the remote object store).
`construct` carries the constructor side effect: `FileStorage.__init__`
creates the base directory when absent, `S3Storage.__init__` and
`GoogleCloudStorage.__init__` check for the bucket and create it when
missing (failing construction when creation fails). -/
structure Backend (σ : Type) where
  construct : σ → Except Str σ
  uploadOp : Str → FileModel → Str → σ → Except Str (StorageUploadResponseModel × σ)
  deleteOp : Str → Str → σ → Except Str σ

/-- Python call semantics for invoking `storage.delete` with a list of
positional arguments.  Every concrete backend declares
`delete(self, name, destination)` with both parameters required and no
defaults (`file_storage.py` line 65, `s3_storage.py` line 98,
`google_cloud_storage.py` line 76), so a call supplying exactly two
arguments runs the backend body, while any other arity raises `TypeError`
before the backend acts. -/
def callStorageDelete (b : Backend σ) (args : List Str) (s : σ) : Except PyErr σ :=
  match args with
  | [n, d] =>
    match b.deleteOp n d s with
    | .ok s2 => .ok s2
    | .error e => .error (.storageDeleteFailed e)
  | _ => .error (.typeError "delete missing 1 required positional argument: destination".toList)

/-- The local-filesystem backend (`core/storage/file_storage.py`) over a
file system modelled as the list of existing paths (directories and files
alike).  Construction is `os.makedirs(bucket_name)` when the directory is
absent; upload writes `join(bucket, destination, name)` and reports the
size and MIME type of the sent file; delete is `os.remove` on the joined
path, which raises when the path does not exist. -/
def localBackend (bucket : Str) : Backend (List Str) where
  construct := fun fs => .ok (if bucket ∈ fs then fs else bucket :: fs)
  uploadOp := fun name file dest fs =>
    let p := pathJoin3 bucket dest name
    .ok (⟨p, file.size, file.content_type⟩, if p ∈ fs then fs else p :: fs)
  deleteOp := fun name dest fs =>
    let p := pathJoin3 bucket dest name
    if p ∈ fs then .ok (fs.filter (fun q => q != p))
    else .error "Failed to delete file from local storage".toList

deriving instance DecidableEq for Except

/-- Everything `upload_file_to_storage` leaves behind: its returned value or
raised exception, the table, the backend state, and the operation log. -/
structure UploadOutcome (σ : Type) where
  result : Except PyErr FileDetailsModel
  db : DB
  store : σ
  events : List Ev
deriving DecidableEq

/-- The except-branch of `upload_file_to_storage` (`upload_service.py`
lines 98-101): on any metadata failure the code runs
`await storage.delete(upload_details.file_path)` — a single-argument call —
and only afterwards raises `Failed to save file metadata` with the original
cause.  The delete call is not guarded by its own try, so when it raises,
its exception propagates in place of the metadata error. -/
def uploadExceptBranch (b : Backend σ) (s1 : σ) (upload_details : StorageUploadResponseModel)
    (err : Str) (db : DB) (evs : List Ev) : UploadOutcome σ :=
  match callStorageDelete b [upload_details.file_path] s1 with
  | .error e2 =>
    ⟨.error e2, db, s1, evs ++ [.storageDeleteAttempt [upload_details.file_path]]⟩
  | .ok s2 =>
    ⟨.error (.metadataPersistFailed err), db, s2,
      evs ++ [.storageDeleteAttempt [upload_details.file_path]]⟩

/-- `upload_service.upload_file_to_storage` (`upload_service.py`
lines 20-101): compute the version from the clock, build the versioned
physical name with `splitext`, strip `/` from the destination, upload
through the backend (failure propagates `Failed to upload file`
immediately), then look up the active row and either mutate it in place and
`update`, or build a fresh row and `insert`; any failure in that second
phase runs `uploadExceptBranch`. -/
def upload_file_to_storage (b : Backend σ) (s : σ) (env : Env) (db : DB) (now : Nat)
    (name : Str) (file : FileModel) (destination tags description : Str) : UploadOutcome σ :=
  let version := now
  let name_versioned := physicalName name version
  let dest := stripSlash destination
  match b.uploadOp name_versioned file dest s with
  | .error err =>
    ⟨.error (.uploadFailed err), db, s, [.storageUpload name_versioned dest]⟩
  | .ok (upload_details, s1) =>
    let evs := [Ev.storageUpload name_versioned dest]
    match get_file_by_name_and_destination env db name dest with
    | .error err => uploadExceptBranch b s1 upload_details err db evs
    | .ok (some file_metadata) =>
      let fm := { file_metadata with
        file_path := upload_details.file_path
        version := version
        file_size := upload_details.file_size
        file_type := upload_details.file_type
        tags := tags
        description := description }
      match update env db fm now with
      | .error err => uploadExceptBranch b s1 upload_details err db evs
      | .ok (db2, fm2) =>
        ⟨.ok ⟨name, upload_details.file_size, dest, fm2.updated_at⟩, db2, s1,
          evs ++ [.dbCommitUpdate fm2.file_id]⟩
    | .ok none =>
      let fm : FileMetadata :=
        { file_id := 0
          file_name := name
          file_path := upload_details.file_path
          file_size := upload_details.file_size
          file_type := upload_details.file_type
          destination := dest
          version := version
          tags := tags
          description := description
          user_id := "system".toList
          is_deleted := false
          created_at := 0
          updated_at := 0 }
      match insertRow env db fm now with
      | .error err => uploadExceptBranch b s1 upload_details err db evs
      | .ok (db2, row) =>
        ⟨.ok ⟨name, upload_details.file_size, dest, row.updated_at⟩, db2, s1,
          evs ++ [.dbCommitInsert row.file_id]⟩

/-- What `soft_delete_file` leaves behind; the function never touches a
storage backend, so there is no backend state. -/
structure SoftDeleteOutcome where
  result : DeleteFileEnum
  db : DB
  events : List Ev
deriving DecidableEq

/-- `delete_service.soft_delete_file` (`delete_service.py` lines 17-55):
look up the active row with the caller-supplied name and destination; when
absent return `FILE_NOT_FOUND`; otherwise set `is_deleted` and persist via
repository `update`; any raised error is caught and becomes `ERROR`. -/
def soft_delete_file (env : Env) (db : DB) (now : Nat) (file_name destination : Str) :
    SoftDeleteOutcome :=
  match get_file_by_name_and_destination env db file_name destination with
  | .error _ => ⟨.ERROR, db, []⟩
  | .ok none => ⟨.FILE_NOT_FOUND, db, []⟩
  | .ok (some file_metadata) =>
    let fm := { file_metadata with is_deleted := true }
    match update env db fm now with
    | .error _ => ⟨.ERROR, db, []⟩
    | .ok (db2, fm2) => ⟨.DELETED, db2, [.dbCommitUpdate fm2.file_id]⟩

/-- What `hard_delete_file` leaves behind. -/
structure HardDeleteOutcome (σ : Type) where
  result : DeleteFileEnum
  db : DB
  store : σ
  events : List Ev
deriving DecidableEq

/-- `session.delete(file_metadata)` followed by `session.commit()`
(`delete_service.py` lines 92-93): the row with that primary key leaves the
table; a failure rolls the transaction back. -/
def dbDeleteCommit (env : Env) (db : DB) (fm : FileMetadata) : Except Str DB :=
  match env.rowDeleteErr with
  | some e => .error e
  | none => .ok (db.filter (fun r => r.file_id != fm.file_id))

/-- `delete_service.hard_delete_file` (`delete_service.py` lines 58-105):
inside the first try, construct the storage backend, run the
soft-delete-inclusive lookup with the caller-supplied name and destination,
return `FILE_NOT_FOUND` when absent, and delete-and-commit the row (any
exception so far yields `ERROR`).  The second try rebuilds the versioned
physical name from the row's stored version and calls
`storage.delete(name=..., destination=...)`; its failure is only logged,
and `DELETED` is returned either way. -/
def hard_delete_file (b : Backend σ) (s : σ) (env : Env) (db : DB)
    (file_name destination : Str) : HardDeleteOutcome σ :=
  match b.construct s with
  | .error _ => ⟨.ERROR, db, s, [.construct]⟩
  | .ok s1 =>
    match get_file_by_name_and_destination_for_hard_delete env db file_name destination with
    | .error _ => ⟨.ERROR, db, s1, [.construct]⟩
    | .ok none => ⟨.FILE_NOT_FOUND, db, s1, [.construct]⟩
    | .ok (some file_metadata) =>
      match dbDeleteCommit env db file_metadata with
      | .error _ => ⟨.ERROR, db, s1, [.construct]⟩
      | .ok db1 =>
        let name := physicalName file_name file_metadata.version
        match callStorageDelete b [name, destination] s1 with
        | .ok s2 =>
          ⟨.DELETED, db1, s2,
            [.construct, .dbCommitDelete file_metadata.file_id,
              .storageDeleteAttempt [name, destination]]⟩
        | .error _ =>
          ⟨.DELETED, db1, s1,
            [.construct, .dbCommitDelete file_metadata.file_id,
              .storageDeleteAttempt [name, destination]]⟩

/-- The list is ordered by `le`. -/
def SortedBy (le : α → α → Bool) (l : List α) : Prop :=
  List.Pairwise (fun a b => le a b = true) l

theorem mem_insertLe (le : α → α → Bool) (x a : α) :
    ∀ l : List α, a ∈ insertLe le x l ↔ a = x ∨ a ∈ l := by
  intro l
  induction l with
  | nil => simp [insertLe]
  | cons y ys ih =>
    by_cases h : le x y = true
    · simp [insertLe, h]
    · simp only [insertLe, h, if_false, Bool.false_eq_true, List.mem_cons, ih]
      tauto

theorem sortedBy_insertLe (le : α → α → Bool)
    (hto : ∀ a b, le a b = true ∨ le b a = true)
    (htr : ∀ a b c, le a b = true → le b c = true → le a c = true)
    (x : α) : ∀ l : List α, SortedBy le l → SortedBy le (insertLe le x l) := by
  intro l
  induction l with
  | nil =>
    intro _
    simp [insertLe, SortedBy]
  | cons y ys ih =>
    intro hs
    rw [SortedBy, List.pairwise_cons] at hs
    obtain ⟨hy, hys⟩ := hs
    by_cases h : le x y = true
    · rw [show insertLe le x (y :: ys) = x :: y :: ys by simp [insertLe, h]]
      rw [SortedBy, List.pairwise_cons]
      refine ⟨?_, ?_⟩
      · intro a ha
        rcases List.mem_cons.mp ha with rfl | hmem
        · exact h
        · exact htr x y a h (hy a hmem)
      · rw [List.pairwise_cons]
        exact ⟨hy, hys⟩
    · rw [show insertLe le x (y :: ys) = y :: insertLe le x ys by simp [insertLe, h]]
      rw [SortedBy, List.pairwise_cons]
      refine ⟨?_, ?_⟩
      · intro a ha
        rcases (mem_insertLe le x a ys).mp ha with rfl | hmem
        · rcases hto a y with h2 | h2
          · exact absurd h2 h
          · exact h2
        · exact hy a hmem
      · exact ih hys

theorem sortedBy_sortByLe (le : α → α → Bool)
    (hto : ∀ a b, le a b = true ∨ le b a = true)
    (htr : ∀ a b c, le a b = true → le b c = true → le a c = true) :
    ∀ l : List α, SortedBy le (sortByLe le l) := by
  intro l
  induction l with
  | nil => simp [sortByLe, SortedBy]
  | cons x xs ih => exact sortedBy_insertLe le hto htr x _ ih

theorem mem_sortByLe (le : α → α → Bool) (a : α) :
    ∀ l : List α, a ∈ sortByLe le l ↔ a ∈ l := by
  intro l
  induction l with
  | nil => simp [sortByLe]
  | cons x xs ih =>
    simp only [sortByLe, mem_insertLe, ih, List.mem_cons]

theorem strLe_total : ∀ a b : Str, strLe a b = true ∨ strLe b a = true := by
  intro a
  induction a with
  | nil =>
    intro b
    left
    simp [strLe]
  | cons x xs ih =>
    intro b
    cases b with
    | nil =>
      right
      simp [strLe]
    | cons y ys =>
      rcases lt_trichotomy x y with h | h | h
      · left
        simp [strLe, h]
      · subst h
        rcases ih ys with h2 | h2
        · left
          simp [strLe, lt_irrefl, h2]
        · right
          simp [strLe, lt_irrefl, h2]
      · right
        simp [strLe, h]

theorem strLe_trans : ∀ a b c : Str, strLe a b = true → strLe b c = true → strLe a c = true := by
  intro a
  induction a with
  | nil =>
    intro b c _ _
    simp [strLe]
  | cons x xs ih =>
    intro b c h1 h2
    cases b with
    | nil => simp [strLe] at h1
    | cons y ys =>
      cases c with
      | nil => simp [strLe] at h2
      | cons z zs =>
        simp only [strLe] at h1 h2 ⊢
        by_cases hxy : x < y
        · by_cases hyz : y < z
          · simp [lt_trans hxy hyz]
          · by_cases heq : y = z
            · subst heq
              simp [hxy]
            · simp [hyz, heq] at h2
        · by_cases heq : x = y
          · subst heq
            rw [if_neg (lt_irrefl x), if_pos rfl] at h1
            by_cases hyz : x < z
            · simp [hyz]
            · by_cases heq2 : x = z
              · subst heq2
                rw [if_neg (lt_irrefl x), if_pos rfl] at h2 ⊢
                exact ih ys zs h1 h2
              · simp [hyz, heq2] at h2
          · simp [hxy, heq] at h1

theorem bleSize_total : ∀ a b : Nat, Nat.ble a b = true ∨ Nat.ble b a = true := by
  intro a b
  rcases Nat.le_total a b with h | h
  · left
    exact Nat.ble_eq.mpr h
  · right
    exact Nat.ble_eq.mpr h

theorem bleSize_trans : ∀ a b c : Nat, Nat.ble a b = true → Nat.ble b c = true →
    Nat.ble a c = true := by
  intro a b c h1 h2
  exact Nat.ble_eq.mpr (Nat.le_trans (Nat.ble_eq.mp h1) (Nat.ble_eq.mp h2))

theorem likeMatch_percent : ∀ s : Str, likeMatch ['%'] s = true := by
  intro s
  induction s with
  | nil => rfl
  | cons x s2 ih =>
    simp only [likeMatch, if_pos rfl, List.tails, List.any_cons] at ih ⊢
    simp [ih]

theorem likeMatch_noWild_percent :
    ∀ p : Str, (∀ c ∈ p, c ≠ '%' ∧ c ≠ '_') →
      ∀ s, likeMatch (p ++ ['%']) s = strStartsWith p s := by
  intro p
  induction p with
  | nil =>
    intro _ s
    simp only [List.nil_append, strStartsWith]
    exact likeMatch_percent s
  | cons c p ih =>
    intro h s
    have hc := h c (List.mem_cons_self c p)
    have ht : ∀ d ∈ p, d ≠ '%' ∧ d ≠ '_' := fun d hd => h d (List.mem_cons_of_mem c hd)
    cases s with
    | nil => simp [likeMatch, strStartsWith, hc.1]
    | cons x s2 =>
      simp [likeMatch, strStartsWith, hc.1, hc.2, ih ht s2]

theorem length_dropWhile_le (p : α → Bool) :
    ∀ l : List α, (l.dropWhile p).length ≤ l.length := by
  intro l
  induction l with
  | nil => simp
  | cons x xs ih =>
    rw [List.dropWhile_cons]
    by_cases hx : p x = true
    · simp only [hx, if_true]
      exact Nat.le_succ_of_le ih
    · simp [hx]

theorem dropWhile_eq_self_of_length (p : α → Bool) :
    ∀ l : List α, (l.dropWhile p).length = l.length → l.dropWhile p = l := by
  intro l
  induction l with
  | nil => simp
  | cons x xs ih =>
    intro h
    rw [List.dropWhile_cons] at h ⊢
    by_cases hx : p x = true
    · rw [if_pos hx] at h
      have := length_dropWhile_le p xs
      simp [List.length_cons] at h
      omega
    · rw [if_neg hx]

theorem stripSlash_ne_self :
    ∀ s : Str, s.head? = some '/' ∨ s.getLast? = some '/' → stripSlash s ≠ s := by
  intro s hb he
  have hlen : (stripSlash s).length = s.length := by rw [he]
  have h2 : (stripSlash s).length
      = ((s.dropWhile (fun ch => ch == '/')).reverse.dropWhile (fun ch => ch == '/')).length := by
    simp [stripSlash]
  have h3 : ((s.dropWhile (fun ch => ch == '/')).reverse.dropWhile (fun ch => ch == '/')).length
      ≤ (s.dropWhile (fun ch => ch == '/')).length := by
    have := length_dropWhile_le (fun ch => ch == '/') (s.dropWhile (fun ch => ch == '/')).reverse
    simpa using this
  have h4 : (s.dropWhile (fun ch => ch == '/')).length ≤ s.length :=
    length_dropWhile_le _ s
  have h5 : (s.dropWhile (fun ch => ch == '/')).length = s.length := by omega
  have hA : s.dropWhile (fun ch => ch == '/') = s := dropWhile_eq_self_of_length _ s h5
  have hB : s.reverse.dropWhile (fun ch => ch == '/') = s.reverse := by
    have := he
    rw [stripSlash, hA] at this
    have h6 := congrArg List.reverse this
    simpa using h6
  rcases hb with hh | hl
  · cases s with
    | nil => simp at hh
    | cons a t =>
      have ha : a = '/' := by simpa using hh
      subst ha
      rw [List.dropWhile_cons] at hA
      rw [if_pos (beq_self_eq_true '/')] at hA
      have := congrArg List.length hA
      have h7 := length_dropWhile_le (fun ch => ch == '/') t
      simp [List.length_cons] at this
      omega
  · have hh : s.reverse.head? = some '/' := by
      rw [List.head?_reverse]
      exact hl
    cases hrev : s.reverse with
    | nil => rw [hrev] at hh; simp at hh
    | cons a t =>
      rw [hrev] at hh hB
      have ha : a = '/' := by simpa using hh
      subst ha
      rw [List.dropWhile_cons] at hB
      rw [if_pos (beq_self_eq_true '/')] at hB
      have := congrArg List.length hB
      have h7 := length_dropWhile_le (fun ch => ch == '/') t
      simp [List.length_cons] at this
      omega

theorem length_filter_map_congr (p : α → Bool) (f : α → α) :
    ∀ l : List α, (∀ r ∈ l, p (f r) = p r) →
      (List.filter p (l.map f)).length = (List.filter p l).length := by
  intro l
  induction l with
  | nil => simp
  | cons x xs ih =>
    intro h
    have hx := h x (List.mem_cons_self x xs)
    have ht : ∀ r ∈ xs, p (f r) = p r := fun r hr => h r (List.mem_cons_of_mem x hr)
    simp only [List.map_cons, List.filter_cons, hx]
    by_cases hp : p x = true
    · simp [hp, ih ht]
    · simp [hp, ih ht]

theorem length_filter_map_le (p : α → Bool) (f : α → α) :
    ∀ l : List α, (∀ r ∈ l, p (f r) = true → p r = true) →
      (List.filter p (l.map f)).length ≤ (List.filter p l).length := by
  intro l
  induction l with
  | nil => simp
  | cons x xs ih =>
    intro h
    have hx := h x (List.mem_cons_self x xs)
    have ht : ∀ r ∈ xs, p (f r) = true → p r = true :=
      fun r hr => h r (List.mem_cons_of_mem x hr)
    simp only [List.map_cons, List.filter_cons]
    by_cases hfx : p (f x) = true
    · rw [if_pos hfx, if_pos (hx hfx)]
      simpa using ih ht
    · rw [if_neg hfx]
      by_cases hpx : p x = true
      · rw [if_pos hpx]
        exact Nat.le_succ_of_le (ih ht)
      · rw [if_neg hpx]
        exact ih ht

theorem eq_of_mem_of_id_eq :
    ∀ db : DB, (db.map FileMetadata.file_id).Nodup → ∀ fm ∈ db, ∀ r ∈ db,
      r.file_id = fm.file_id → r = fm := by
  intro db
  induction db with
  | nil => simp
  | cons x xs ih =>
    intro hnd fm hfm r hr hid
    simp only [List.map_cons, List.nodup_cons] at hnd
    obtain ⟨hx, hnd2⟩ := hnd
    rcases List.mem_cons.mp hr with rfl | hr2
    · rcases List.mem_cons.mp hfm with rfl | hfm2
      · rfl
      · exact absurd (hid ▸ List.mem_map_of_mem FileMetadata.file_id hfm2) hx
    · rcases List.mem_cons.mp hfm with rfl | hfm2
      · exact absurd (hid ▸ List.mem_map_of_mem FileMetadata.file_id hr2) hx
      · exact ih hnd2 fm hfm2 r hr2 hid

theorem le_maxId : ∀ db : DB, ∀ r ∈ db, r.file_id ≤ maxId db := by
  intro db
  induction db with
  | nil => simp
  | cons x xs ih =>
    intro r hr
    rcases List.mem_cons.mp hr with rfl | hr2
    · exact Nat.le_max_left _ _
    · exact Nat.le_trans (ih r hr2) (Nat.le_max_right _ _)

theorem maxId_succ_fresh : ∀ db : DB, ∀ r ∈ db, r.file_id ≠ maxId db + 1 := by
  intro db r hr h
  have := le_maxId db r hr
  omega

theorem get_active_eval (env : Env) (db : DB) (n d : Str) (h : env.lookupErr = none) :
    get_file_by_name_and_destination env db n d
      = scalarOneOrNone (db.filter (activePred n d)) := by
  simp [get_file_by_name_and_destination, h]

theorem get_any_eval (env : Env) (db : DB) (n d : Str) (h : env.lookupErr = none) :
    get_file_by_name_and_destination_for_hard_delete env db n d
      = scalarOneOrNone (db.filter (anyPred n d)) := by
  simp [get_file_by_name_and_destination_for_hard_delete, h]

theorem update_eval (env : Env) (db : DB) (fm : FileMetadata) (now : Nat)
    (h : env.persistErr = none) : update env db fm now = .ok (mergeRow db fm now) := by
  simp [update, h]

theorem insert_eval (env : Env) (db : DB) (fm : FileMetadata) (now : Nat)
    (h : env.persistErr = none) :
    insertRow env db fm now
      = .ok (db ++ [{ fm with file_id := maxId db + 1, created_at := now, updated_at := now }],
          { fm with file_id := maxId db + 1, created_at := now, updated_at := now }) := by
  simp [insertRow, h]

theorem mergeRow_of_mem (db : DB) (fm : FileMetadata) (now : Nat) (fm0 : FileMetadata)
    (h0 : fm0 ∈ db) (hid : fm0.file_id = fm.file_id) :
    mergeRow db fm now =
      (db.map (fun r => if r.file_id == fm.file_id then { fm with updated_at := now } else r),
        { fm with updated_at := now }) := by
  have hany : db.any (fun r => r.file_id == fm.file_id) = true :=
    List.any_eq_true.mpr ⟨fm0, h0, by simp [hid]⟩
  simp [mergeRow, hany]

theorem filter_active_eq (n d : Str) (db : DB) :
    db.filter (activePred n d)
      = (db.filter (anyPred n d)).filter (fun r => !r.is_deleted) := by
  rw [List.filter_filter]
  apply List.filter_congr
  intro r _
  cases h1 : (r.file_name == n) <;> cases h2 : (r.destination == d) <;>
    cases h3 : r.is_deleted <;> simp [activePred, anyPred, h1, h2, h3]

theorem of_filter_active_single (db : DB) (n d : Str) (fm : FileMetadata)
    (h : db.filter (activePred n d) = [fm]) :
    fm ∈ db ∧ fm.file_name = n ∧ fm.destination = d ∧ fm.is_deleted = false := by
  have hm : fm ∈ db.filter (activePred n d) := by
    rw [h]
    exact List.mem_cons_self fm []
  obtain ⟨hdb, hp⟩ := List.mem_filter.mp hm
  simp only [activePred, Bool.and_eq_true, beq_iff_eq, Bool.not_eq_true'] at hp
  exact ⟨hdb, hp.1.1, hp.1.2, hp.2⟩

theorem of_filter_any_single (db : DB) (n d : Str) (fm : FileMetadata)
    (h : db.filter (anyPred n d) = [fm]) :
    fm ∈ db ∧ fm.file_name = n ∧ fm.destination = d := by
  have hm : fm ∈ db.filter (anyPred n d) := by
    rw [h]
    exact List.mem_cons_self fm []
  obtain ⟨hdb, hp⟩ := List.mem_filter.mp hm
  simp only [anyPred, Bool.and_eq_true, beq_iff_eq] at hp
  exact ⟨hdb, hp.1, hp.2⟩

theorem scalarOneOrNone_eq_none : ∀ l : List α, scalarOneOrNone l = .ok none ↔ l = [] := by
  intro l
  cases l with
  | nil => simp [scalarOneOrNone]
  | cons x xs => cases xs <;> simp [scalarOneOrNone]

theorem scalarOneOrNone_eq_some (x : α) :
    ∀ l : List α, scalarOneOrNone l = .ok (some x) ↔ l = [x] := by
  intro l
  cases l with
  | nil => simp [scalarOneOrNone]
  | cons y ys =>
    cases ys with
    | nil => simp [scalarOneOrNone]
    | cons z zs => simp [scalarOneOrNone]

/-- Primary keys are unique in the table. -/
def idsNodup (db : DB) : Prop := (db.map FileMetadata.file_id).Nodup

/-- At most one active (non-soft-deleted) row per (file_name, destination)
pair. -/
def activeAtMostOne (db : DB) : Prop :=
  ∀ n d, (db.filter (activePred n d)).length ≤ 1

/-- The table invariant maintained by the service workflows. -/
def DBInv (db : DB) : Prop := idsNodup db ∧ activeAtMostOne db

theorem DBInv_map_replace (db : DB) (fm fm2 : FileMetadata) (hfm : fm ∈ db)
    (hid : fm2.file_id = fm.file_id)
    (himp : ∀ n d, activePred n d fm2 = true → activePred n d fm = true)
    (h : DBInv db) :
    DBInv (db.map (fun r => if r.file_id == fm.file_id then fm2 else r)) := by
  constructor
  · have hmap : (db.map (fun r => if r.file_id == fm.file_id then fm2 else r)).map
        FileMetadata.file_id = db.map FileMetadata.file_id := by
      rw [List.map_map]
      apply List.map_congr_left
      intro r _
      by_cases hb : (r.file_id == fm.file_id) = true
      · have : r.file_id = fm.file_id := by simpa using hb
        simp [Function.comp, hb, hid, this]
      · simp [Function.comp, hb]
    rw [idsNodup, hmap]
    exact h.1
  · intro n d
    have hle := length_filter_map_le (activePred n d)
      (fun r => if r.file_id == fm.file_id then fm2 else r) db ?_
    · exact Nat.le_trans hle (h.2 n d)
    · intro r hr hp
      by_cases hb : (r.file_id == fm.file_id) = true
      · have hr2 : r = fm := by
          apply eq_of_mem_of_id_eq db h.1 fm hfm r hr
          simpa using hb
        simp only [hb, if_true] at hp
        rw [hr2]
        exact himp n d hp
      · simp only [hb, if_false] at hp
        exact hp

theorem DBInv_append (db : DB) (row : FileMetadata)
    (hfresh : ∀ r ∈ db, r.file_id ≠ row.file_id)
    (hact : db.filter (activePred row.file_name row.destination) = [])
    (h : DBInv db) : DBInv (db ++ [row]) := by
  constructor
  · rw [idsNodup, List.map_append, List.nodup_append]
    refine ⟨h.1, by simp, ?_⟩
    intro a ha hb
    simp only [List.map_cons, List.map_nil, List.mem_singleton] at hb
    obtain ⟨r, hr, hrid⟩ := List.mem_map.mp ha
    exact hfresh r hr (hrid.trans hb)
  · intro n d
    rw [List.filter_append]
    by_cases hp : activePred n d row = true
    · have hn : row.file_name = n ∧ row.destination = d := by
        simp only [activePred, Bool.and_eq_true, beq_iff_eq] at hp
        exact ⟨hp.1.1, hp.1.2⟩
      have : db.filter (activePred n d) = [] := by
        rw [← hn.1, ← hn.2]
        exact hact
      simp [this, List.filter_cons, hp]
    · have : List.filter (activePred n d) [row] = [] := by
        simp [List.filter_cons, hp]
      rw [this, List.append_nil]
      exact h.2 n d

theorem uploadExceptBranch_db (b : Backend σ) (s1 : σ) (du : StorageUploadResponseModel)
    (err : Str) (db : DB) (evs : List Ev) :
    (uploadExceptBranch b s1 du err db evs).db = db := by
  rw [uploadExceptBranch]
  cases callStorageDelete b [du.file_path] s1 <;> rfl

theorem get_active_err (env : Env) (db : DB) (n d : Str) (e : Str)
    (h : env.lookupErr = some e) :
    get_file_by_name_and_destination env db n d = .error e := by
  simp [get_file_by_name_and_destination, h]

theorem get_any_err (env : Env) (db : DB) (n d : Str) (e : Str)
    (h : env.lookupErr = some e) :
    get_file_by_name_and_destination_for_hard_delete env db n d = .error e := by
  simp [get_file_by_name_and_destination_for_hard_delete, h]

theorem update_err (env : Env) (db : DB) (fm : FileMetadata) (now : Nat) (e : Str)
    (h : env.persistErr = some e) : update env db fm now = .error e := by
  simp [update, h]

theorem insert_err (env : Env) (db : DB) (fm : FileMetadata) (now : Nat) (e : Str)
    (h : env.persistErr = some e) : insertRow env db fm now = .error e := by
  simp [insertRow, h]

theorem DBInv_upload (T : Type) (b : Backend T) (s : T) (env : Env) (db : DB) (now : Nat)
    (name : Str) (file : FileModel) (dest tags descr : Str) (h : DBInv db) :
    DBInv (upload_file_to_storage b s env db now name file dest tags descr).db := by
  simp only [upload_file_to_storage]
  cases hup : b.uploadOp (physicalName name now) file (stripSlash dest) s with
  | error e => exact h
  | ok p =>
    obtain ⟨du, s1⟩ := p
    simp only []
    cases henv : env.lookupErr with
    | some e =>
      rw [get_active_err env db name (stripSlash dest) e henv]
      simp only []
      rw [uploadExceptBranch_db]
      exact h
    | none =>
      rw [get_active_eval env db name (stripSlash dest) henv]
      cases hfil : db.filter (activePred name (stripSlash dest)) with
      | nil =>
        rw [show scalarOneOrNone ([] : List FileMetadata) = .ok none from rfl]
        simp only []
        cases henv2 : env.persistErr with
        | some e =>
          rw [insert_err env db _ now e henv2]
          simp only []
          rw [uploadExceptBranch_db]
          exact h
        | none =>
          rw [insert_eval env db _ now henv2]
          simp only []
          apply DBInv_append db _ ?_ ?_ h
          · intro r hr
            exact maxId_succ_fresh db r hr
          · exact hfil
      | cons fm rest =>
        cases rest with
        | cons fm2 rest2 =>
          rw [show scalarOneOrNone (fm :: fm2 :: rest2)
              = (.error "Multiple rows were found".toList :
                Except Str (Option FileMetadata)) from rfl]
          simp only []
          rw [uploadExceptBranch_db]
          exact h
        | nil =>
          rw [show scalarOneOrNone [fm] = .ok (some fm) from rfl]
          simp only []
          cases henv2 : env.persistErr with
          | some e =>
            rw [update_err env db _ now e henv2]
            simp only []
            rw [uploadExceptBranch_db]
            exact h
          | none =>
            rw [update_eval env db _ now henv2]
            obtain ⟨hmem, hname, hdest, hdel⟩ := of_filter_active_single db _ _ fm hfil
            rw [mergeRow_of_mem db ({ fm with file_path := du.file_path, version := now, file_size := du.file_size, file_type := du.file_type, tags := tags, description := descr }) now fm hmem rfl]
            simp only []
            exact DBInv_map_replace db fm _ hmem rfl (fun n d hp => hp) h

theorem DBInv_filter (q : FileMetadata → Bool) (db : DB) (h : DBInv db) :
    DBInv (db.filter q) := by
  constructor
  · exact List.Nodup.sublist ((List.filter_sublist db).map FileMetadata.file_id) h.1
  · intro n d
    exact Nat.le_trans
      (List.Sublist.length_le (List.Sublist.filter (activePred n d) (List.filter_sublist db)))
      (h.2 n d)

theorem DBInv_soft (env : Env) (db : DB) (now : Nat) (n d : Str) (h : DBInv db) :
    DBInv (soft_delete_file env db now n d).db := by
  simp only [soft_delete_file]
  cases henv : env.lookupErr with
  | some e =>
    rw [get_active_err env db n d e henv]
    exact h
  | none =>
    rw [get_active_eval env db n d henv]
    cases hfil : db.filter (activePred n d) with
    | nil =>
      rw [show scalarOneOrNone ([] : List FileMetadata) = .ok none from rfl]
      exact h
    | cons fm rest =>
      cases rest with
      | cons fm2 rest2 =>
        rw [show scalarOneOrNone (fm :: fm2 :: rest2)
            = (.error "Multiple rows were found".toList :
              Except Str (Option FileMetadata)) from rfl]
        exact h
      | nil =>
        rw [show scalarOneOrNone [fm] = .ok (some fm) from rfl]
        simp only []
        cases henv2 : env.persistErr with
        | some e =>
          rw [update_err env db _ now e henv2]
          exact h
        | none =>
          rw [update_eval env db _ now henv2]
          obtain ⟨hmem, hname, hdest, hdel⟩ := of_filter_active_single db _ _ fm hfil
          rw [mergeRow_of_mem db ({ fm with is_deleted := true }) now fm hmem rfl]
          simp only []
          apply DBInv_map_replace db fm ({ fm with is_deleted := true, updated_at := now }) hmem rfl ?_ h
          intro n2 d2 hp
          simp [activePred] at hp

theorem DBInv_hard (T : Type) (b : Backend T) (s : T) (env : Env) (db : DB) (n d : Str)
    (h : DBInv db) : DBInv (hard_delete_file b s env db n d).db := by
  simp only [hard_delete_file]
  cases hc : b.construct s with
  | error e => exact h
  | ok s1 =>
    simp only []
    cases henv : env.lookupErr with
    | some e =>
      rw [get_any_err env db n d e henv]
      exact h
    | none =>
      rw [get_any_eval env db n d henv]
      cases hfil : db.filter (anyPred n d) with
      | nil =>
        rw [show scalarOneOrNone ([] : List FileMetadata) = .ok none from rfl]
        exact h
      | cons fm rest =>
        cases rest with
        | cons fm2 rest2 =>
          rw [show scalarOneOrNone (fm :: fm2 :: rest2)
              = (.error "Multiple rows were found".toList :
                Except Str (Option FileMetadata)) from rfl]
          exact h
        | nil =>
          rw [show scalarOneOrNone [fm] = .ok (some fm) from rfl]
          simp only []
          cases henv2 : env.rowDeleteErr with
          | some e =>
            rw [show dbDeleteCommit env db fm = .error e from by simp [dbDeleteCommit, henv2]]
            exact h
          | none =>
            rw [show dbDeleteCommit env db fm
                = .ok (db.filter (fun r => r.file_id != fm.file_id)) from by
              simp [dbDeleteCommit, henv2]]
            simp only []
            cases hdel : callStorageDelete b [physicalName n fm.version, d] s1 with
            | ok s2 => exact DBInv_filter _ db h
            | error e => exact DBInv_filter _ db h

/-- The table states reachable from an empty table through the three service
workflows, with arbitrary backends, clocks, inputs and injected errors. -/
inductive Reachable : DB → Prop where
  | init : Reachable []
  | upload {db : DB} (h : Reachable db) (T : Type) (b : Backend T) (s : T) (env : Env)
      (now : Nat) (name : Str) (file : FileModel) (dest tags descr : Str) :
      Reachable ((upload_file_to_storage b s env db now name file dest tags descr).db)
  | softDel {db : DB} (h : Reachable db) (env : Env) (now : Nat) (n d : Str) :
      Reachable ((soft_delete_file env db now n d).db)
  | hardDel {db : DB} (h : Reachable db) (T : Type) (b : Backend T) (s : T) (env : Env)
      (n d : Str) :
      Reachable ((hard_delete_file b s env db n d).db)

theorem reachable_DBInv : ∀ db : DB, Reachable db → DBInv db := by
  intro db h
  induction h with
  | init =>
    constructor
    · simp [idsNodup]
    · intro n d
      simp [activeAtMostOne]
  | upload h T b s env now name file dest tags descr ih =>
    exact DBInv_upload T b s env _ now name file dest tags descr ih
  | softDel h env now n d ih => exact DBInv_soft env _ now n d ih
  | hardDel h T b s env n d ih => exact DBInv_hard T b s env _ n d ih

theorem upload_shape_uploadErr (T : Type) (b : Backend T) (s : T) (env : Env) (db : DB)
    (now : Nat) (name : Str) (file : FileModel) (dest tags descr : Str) (e : Str)
    (hup : b.uploadOp (physicalName name now) file (stripSlash dest) s = .error e) :
    upload_file_to_storage b s env db now name file dest tags descr
      = ⟨.error (.uploadFailed e), db, s,
          [.storageUpload (physicalName name now) (stripSlash dest)]⟩ := by
  simp only [upload_file_to_storage]
  rw [hup]

theorem upload_shape_update (T : Type) (b : Backend T) (s s1 : T) (env : Env) (db : DB)
    (now : Nat) (name : Str) (file : FileModel) (dest tags descr : Str)
    (du : StorageUploadResponseModel) (fm : FileMetadata)
    (henv : env.lookupErr = none) (henv2 : env.persistErr = none)
    (hup : b.uploadOp (physicalName name now) file (stripSlash dest) s = .ok (du, s1))
    (hfil : db.filter (activePred name (stripSlash dest)) = [fm]) :
    upload_file_to_storage b s env db now name file dest tags descr
      = ⟨.ok ⟨name, du.file_size, stripSlash dest, now⟩,
          db.map (fun r => if r.file_id == fm.file_id then { fm with file_path := du.file_path, version := now, file_size := du.file_size, file_type := du.file_type, tags := tags, description := descr, updated_at := now } else r),
          s1,
          [.storageUpload (physicalName name now) (stripSlash dest),
            .dbCommitUpdate fm.file_id]⟩ := by
  simp only [upload_file_to_storage]
  rw [hup]
  simp only []
  rw [get_active_eval env db name (stripSlash dest) henv, hfil]
  rw [show scalarOneOrNone [fm] = .ok (some fm) from rfl]
  simp only []
  rw [update_eval env db _ now henv2]
  obtain ⟨hmem, hname, hdest, hdel⟩ := of_filter_active_single db _ _ fm hfil
  rw [mergeRow_of_mem db ({ fm with file_path := du.file_path, version := now, file_size := du.file_size, file_type := du.file_type, tags := tags, description := descr }) now fm hmem rfl]
  simp only []
  rfl

theorem upload_shape_insert (T : Type) (b : Backend T) (s s1 : T) (env : Env) (db : DB)
    (now : Nat) (name : Str) (file : FileModel) (dest tags descr : Str)
    (du : StorageUploadResponseModel)
    (henv : env.lookupErr = none) (henv2 : env.persistErr = none)
    (hup : b.uploadOp (physicalName name now) file (stripSlash dest) s = .ok (du, s1))
    (hfil : db.filter (activePred name (stripSlash dest)) = []) :
    upload_file_to_storage b s env db now name file dest tags descr
      = ⟨.ok ⟨name, du.file_size, stripSlash dest, now⟩,
          db ++ [⟨maxId db + 1, name, du.file_path, du.file_size, du.file_type,
            stripSlash dest, now, tags, descr, "system".toList, false, now, now⟩],
          s1,
          [.storageUpload (physicalName name now) (stripSlash dest),
            .dbCommitInsert (maxId db + 1)]⟩ := by
  simp only [upload_file_to_storage]
  rw [hup]
  simp only []
  rw [get_active_eval env db name (stripSlash dest) henv, hfil]
  rw [show scalarOneOrNone ([] : List FileMetadata) = .ok none from rfl]
  simp only []
  rw [insert_eval env db _ now henv2]
  simp only []
  rfl

theorem soft_shape_lookupErr (env : Env) (db : DB) (now : Nat) (n d e : Str)
    (h : env.lookupErr = some e) :
    soft_delete_file env db now n d = ⟨.ERROR, db, []⟩ := by
  simp only [soft_delete_file]
  rw [get_active_err env db n d e h]

theorem soft_shape_notFound (env : Env) (db : DB) (now : Nat) (n d : Str)
    (henv : env.lookupErr = none) (hfil : db.filter (activePred n d) = []) :
    soft_delete_file env db now n d = ⟨.FILE_NOT_FOUND, db, []⟩ := by
  simp only [soft_delete_file]
  rw [get_active_eval env db n d henv, hfil]
  rfl

theorem soft_shape_deleted (env : Env) (db : DB) (now : Nat) (n d : Str) (fm : FileMetadata)
    (henv : env.lookupErr = none) (henv2 : env.persistErr = none)
    (hfil : db.filter (activePred n d) = [fm]) :
    soft_delete_file env db now n d
      = ⟨.DELETED,
          db.map (fun r => if r.file_id == fm.file_id then { fm with is_deleted := true, updated_at := now } else r),
          [.dbCommitUpdate fm.file_id]⟩ := by
  simp only [soft_delete_file]
  rw [get_active_eval env db n d henv, hfil]
  rw [show scalarOneOrNone [fm] = .ok (some fm) from rfl]
  simp only []
  rw [update_eval env db _ now henv2]
  obtain ⟨hmem, hname, hdest, hdel⟩ := of_filter_active_single db _ _ fm hfil
  rw [mergeRow_of_mem db ({ fm with is_deleted := true }) now fm hmem rfl]

theorem soft_shape_persistErr (env : Env) (db : DB) (now : Nat) (n d e : Str)
    (fm : FileMetadata) (henv : env.lookupErr = none) (henv2 : env.persistErr = some e)
    (hfil : db.filter (activePred n d) = [fm]) :
    soft_delete_file env db now n d = ⟨.ERROR, db, []⟩ := by
  simp only [soft_delete_file]
  rw [get_active_eval env db n d henv, hfil]
  rw [show scalarOneOrNone [fm] = .ok (some fm) from rfl]
  simp only []
  rw [update_err env db _ now e henv2]

theorem hard_shape_notFound (T : Type) (b : Backend T) (s s1 : T) (env : Env) (db : DB)
    (n d : Str) (hc : b.construct s = .ok s1) (henv : env.lookupErr = none)
    (hfil : db.filter (anyPred n d) = []) :
    hard_delete_file b s env db n d = ⟨.FILE_NOT_FOUND, db, s1, [.construct]⟩ := by
  simp only [hard_delete_file]
  rw [hc]
  simp only []
  rw [get_any_eval env db n d henv, hfil]
  rfl

theorem hard_shape_found (T : Type) (b : Backend T) (s s1 : T) (env : Env) (db : DB)
    (n d : Str) (fm : FileMetadata) (hc : b.construct s = .ok s1)
    (henv : env.lookupErr = none) (henv2 : env.rowDeleteErr = none)
    (hfil : db.filter (anyPred n d) = [fm]) :
    (hard_delete_file b s env db n d).result = .DELETED
    ∧ (hard_delete_file b s env db n d).db = db.filter (fun r => r.file_id != fm.file_id)
    ∧ (hard_delete_file b s env db n d).events
        = [.construct, .dbCommitDelete fm.file_id,
            .storageDeleteAttempt [physicalName n fm.version, d]] := by
  simp only [hard_delete_file]
  rw [hc]
  simp only []
  rw [get_any_eval env db n d henv, hfil]
  rw [show scalarOneOrNone [fm] = .ok (some fm) from rfl]
  simp only []
  rw [show dbDeleteCommit env db fm
      = .ok (db.filter (fun r => r.file_id != fm.file_id)) from by
    simp [dbDeleteCommit, henv2]]
  simp only []
  cases hdel : callStorageDelete b [physicalName n fm.version, d] s1 with
  | ok s2 => exact ⟨rfl, rfl, rfl⟩
  | error e => exact ⟨rfl, rfl, rfl⟩

/-- The physical-name rule exactly as the specification words it (claim C2):
base and ext come from splitting the logical name at its final dot, with no
extension when the name has no dot at all. -/
def specSplitAtFinalDot (name : Str) : Str × Str :=
  match lastIdxOf '.' name with
  | none => (name, [])
  | some dotIdx => (name.take dotIdx, name.drop dotIdx)

/-- `base_{version}ext` with base and ext given by `specSplitAtFinalDot`. -/
def specPhysicalName (name : Str) (version : Nat) : Str :=
  (specSplitAtFinalDot name).1 ++ '_' :: (natStr version ++ (specSplitAtFinalDot name).2)

/-- The guard under which CPython splitext really does split at the final
dot: there is no dot, or the final dot lies in the basename and some earlier
basename character is not a dot. -/
def splitsAtFinalDot (name : Str) : Bool :=
  match lastIdxOf '.' name with
  | none => true
  | some dotIdx =>
    let start : Nat :=
      match lastIdxOf '/' name with
      | none => 0
      | some sepIdx => sepIdx + 1
    Nat.ble start dotIdx && ((name.drop start).take (dotIdx - start)).any (fun ch => ch != '.')

theorem physicalName_eq_spec_of_guard :
    ∀ (name : Str) (v : Nat), splitsAtFinalDot name = true →
      physicalName name v = specPhysicalName name v := by
  intro name v hg
  rw [splitsAtFinalDot] at hg
  rw [physicalName, specPhysicalName, splitext, specSplitAtFinalDot]
  cases hidx : lastIdxOf '.' name with
  | none => rfl
  | some dotIdx =>
    rw [hidx] at hg
    simp only [] at hg
    simp only [hg, if_true]

/-- A small client file: 4 bytes of plain text. -/
def file0 : FileModel := ⟨4, "text/plain".toList⟩

/-- The local backend rooted at directory `bucket`. -/
def bktB : Backend (List Str) := localBackend "bucket".toList

/-- Upload `a.txt` to the root destination at time 1 on an empty table. -/
def exUp1 : UploadOutcome (List Str) :=
  upload_file_to_storage bktB ["bucket".toList] envOk [] 1 "a.txt".toList file0 [] [] []

/-- Soft-delete that file at time 2. -/
def exSoft : SoftDeleteOutcome := soft_delete_file envOk exUp1.db 2 "a.txt".toList []

/-- Upload the same (name, destination) pair again at time 3. -/
def exUp2 : UploadOutcome (List Str) :=
  upload_file_to_storage bktB exUp1.store envOk exSoft.db 3 "a.txt".toList file0 [] [] []

/-- The soft-deleted row left behind by `exSoft` inside `exUp2.db`. -/
def exDeadRow : FileMetadata :=
  ⟨1, "a.txt".toList, "bucket/a_1.txt".toList, 4, "text/plain".toList, [], 1, [], [],
    "system".toList, true, 1, 2⟩

/-- The database-error oracle used to reproduce the metadata-persistence
failure of claim C1 (mirroring the repository's own test, which injects
`db error` into the lookup). -/
def C1env : Env := ⟨some "db error".toList, none, none⟩

/-- Claim C1's failing run: the storage upload succeeds, then the metadata
lookup raises `db error`. -/
def C1run : UploadOutcome (List Str) :=
  upload_file_to_storage bktB ["bucket".toList] C1env [] 1234567890 "test.txt".toList file0
    "folder".toList [] []

/-- C1: evaluating the upload workflow at the failing input (upload
succeeds, metadata lookup raises `db error`).  The compensating
`storage.delete(upload_details.file_path)` call at `upload_service.py`
line 100 passes one argument to a method whose `destination` parameter is
required, so a `TypeError` propagates in place of the
`Failed to save file metadata: db error` exception, exactly one ill-formed
delete attempt is logged, the just-written object is still present in the
backend, and the table is unchanged. -/
theorem C1_compensating_delete_bug :
    C1run.result
      = .error (.typeError "delete missing 1 required positional argument: destination".toList)
    ∧ C1run.result ≠ .error (.metadataPersistFailed "db error".toList)
    ∧ C1run.events
      = [.storageUpload "test_1234567890.txt".toList "folder".toList,
          .storageDeleteAttempt ["bucket/folder/test_1234567890.txt".toList]]
    ∧ "bucket/folder/test_1234567890.txt".toList ∈ C1run.store
    ∧ C1run.db = [] := by
  refine ⟨by decide, by decide, by decide, by decide, by decide⟩

/-- C2, counterexample to the claim as stated: for the logical name
`.bashrc` the code does not split at the final dot — CPython splitext
treats the leading dot as part of the base — so the physical name computed
by the upload workflow differs from the one the claim describes. -/
theorem C2_counterexample :
    physicalName ".bashrc".toList 1000 ≠ specPhysicalName ".bashrc".toList 1000 := by
  decide

/-- Upload `report.pdf` to destination `q1` at time 1000 on an empty
table (the concrete scenario of claim C2). -/
def C2run : UploadOutcome (List Str) :=
  upload_file_to_storage bktB ["bucket".toList] envOk [] 1000 "report.pdf".toList file0
    "q1".toList [] []

/-- C2 (amended): the upload workflow computes version as the clock reading
and physical name `base_{version}ext`, where base and ext come from
splitting at the final dot whenever that dot lies in the basename and some
earlier basename character is not a dot; otherwise (e.g. `.bashrc`) the
extension is empty and the version is appended at the end.  Uploading
`report.pdf` to `q1` at time 1000 stores object `report_1000.pdf` and a
single row with version 1000. -/
theorem C2_theorem :
    (∀ (name : Str) (v : Nat), splitsAtFinalDot name = true →
        physicalName name v = specPhysicalName name v)
    ∧ splitsAtFinalDot ".bashrc".toList = false
    ∧ physicalName ".bashrc".toList 1000 = ".bashrc_1000".toList
    ∧ C2run.events
      = [.storageUpload "report_1000.pdf".toList "q1".toList, .dbCommitInsert 1]
    ∧ C2run.db.map (fun r => r.version) = [1000] := by
  refine ⟨physicalName_eq_spec_of_guard, by decide, by decide, by decide, by decide⟩

/-- C2, witness: the guarded equation of `C2_theorem` applied at the
concrete name `report.pdf`. -/
theorem C2_witness :
    physicalName "report.pdf".toList 77 = specPhysicalName "report.pdf".toList 77 :=
  C2_theorem.1 "report.pdf".toList 77 (by decide)

/-- C3, counterexample to the claim as stated: after upload, soft delete
and re-upload of the same (name, destination) pair, the table holds two
non-hard-deleted rows for that pair (one soft-deleted, one active), so
"at most one non-hard-deleted row exists at any time" fails on the code. -/
theorem C3_counterexample :
    (exUp2.db.filter (anyPred "a.txt".toList [])).length = 2
    ∧ exUp2.db.map (fun r => r.is_deleted) = [true, false] := by
  refine ⟨by decide, by decide⟩

/-- C9, counterexample to the claim as stated: in the reachable table
`exUp2.db`, the soft-deleted row for (`a.txt`, root) is not returned by the
hard-delete lookup — `scalar_one_or_none` sees two rows for the pair and
raises `MultipleResultsFound` instead. -/
theorem C9_counterexample :
    exDeadRow ∈ exUp2.db
    ∧ exDeadRow.is_deleted = true
    ∧ get_file_by_name_and_destination_for_hard_delete envOk exUp2.db "a.txt".toList []
      = .error "Multiple rows were found".toList := by
  refine ⟨by decide, by decide, by decide⟩

/-- C3 (amended): in every table reachable through the workflows, at most
one ACTIVE (non-soft-deleted) row exists per (file_name, destination) pair;
an upload that finds an active row mutates it in place via merge — same
file_id, file_path/version/file_size/file_type/tags/description overwritten,
no row added — and an upload that finds none appends exactly one new row
(even when a soft-deleted row for the pair remains). -/
theorem C3_theorem :
    (∀ db : DB, Reachable db → ∀ n d : Str, (db.filter (activePred n d)).length ≤ 1)
    ∧ (∀ (T : Type) (b : Backend T) (s s1 : T) (env : Env) (db : DB) (now : Nat)
        (name : Str) (file : FileModel) (dest tags descr : Str)
        (du : StorageUploadResponseModel) (fm : FileMetadata),
        env.lookupErr = none → env.persistErr = none →
        b.uploadOp (physicalName name now) file (stripSlash dest) s = .ok (du, s1) →
        db.filter (activePred name (stripSlash dest)) = [fm] →
        upload_file_to_storage b s env db now name file dest tags descr
          = ⟨.ok ⟨name, du.file_size, stripSlash dest, now⟩,
              db.map (fun r => if r.file_id == fm.file_id then { fm with file_path := du.file_path, version := now, file_size := du.file_size, file_type := du.file_type, tags := tags, description := descr, updated_at := now } else r),
              s1,
              [.storageUpload (physicalName name now) (stripSlash dest),
                .dbCommitUpdate fm.file_id]⟩)
    ∧ (∀ (T : Type) (b : Backend T) (s s1 : T) (env : Env) (db : DB) (now : Nat)
        (name : Str) (file : FileModel) (dest tags descr : Str)
        (du : StorageUploadResponseModel),
        env.lookupErr = none → env.persistErr = none →
        b.uploadOp (physicalName name now) file (stripSlash dest) s = .ok (du, s1) →
        db.filter (activePred name (stripSlash dest)) = [] →
        upload_file_to_storage b s env db now name file dest tags descr
          = ⟨.ok ⟨name, du.file_size, stripSlash dest, now⟩,
              db ++ [⟨maxId db + 1, name, du.file_path, du.file_size, du.file_type,
                stripSlash dest, now, tags, descr, "system".toList, false, now, now⟩],
              s1,
              [.storageUpload (physicalName name now) (stripSlash dest),
                .dbCommitInsert (maxId db + 1)]⟩) := by
  refine ⟨?_, ?_, ?_⟩
  · intro db h n d
    exact (reachable_DBInv db h).2 n d
  · intro T b s s1 env db now name file dest tags descr du fm h1 h2 h3 h4
    exact upload_shape_update T b s s1 env db now name file dest tags descr du fm h1 h2 h3 h4
  · intro T b s s1 env db now name file dest tags descr du h1 h2 h3 h4
    exact upload_shape_insert T b s s1 env db now name file dest tags descr du h1 h2 h3 h4

/-- C3, witness: the in-place-update equation of `C3_theorem` applied at a
concrete re-upload of `a.txt` over the single active row left by `exUp1`. -/
theorem C3_witness :
    upload_file_to_storage bktB exUp1.store envOk exUp1.db 9 "a.txt".toList file0 [] "t".toList "d".toList
      = ⟨.ok ⟨"a.txt".toList, 4, [], 9⟩,
          exUp1.db.map (fun r => if r.file_id == exDeadRow.file_id then { exDeadRow with file_path := "bucket/a_9.txt".toList, version := 9, file_size := 4, file_type := "text/plain".toList, tags := "t".toList, description := "d".toList, is_deleted := false, created_at := 1, updated_at := 9 } else r),
          "bucket/a_9.txt".toList :: exUp1.store,
          [.storageUpload "a_9.txt".toList [], .dbCommitUpdate 1]⟩ := by
  have h := C3_theorem.2.1 (List Str) bktB exUp1.store ("bucket/a_9.txt".toList :: exUp1.store)
    envOk exUp1.db 9
    "a.txt".toList file0 [] "t".toList "d".toList
    ⟨"bucket/a_9.txt".toList, 4, "text/plain".toList⟩
    ⟨1, "a.txt".toList, "bucket/a_1.txt".toList, 4, "text/plain".toList, [], 1, [], [],
      "system".toList, false, 1, 1⟩
    rfl rfl (by decide) (by decide)
  exact h.trans (by decide)

/-- C4: whenever hardDelete finds the metadata row for the pair (with the
backend constructed and the row delete-and-commit succeeding), the row is
removed from the table and committed first, then the physical name
`base_{storedVersion}ext` is derived from the row's stored version and a
two-argument storage delete is attempted; the result is `DELETED` and the
table stays the row-free table no matter whether that storage delete
succeeds or fails (the failure is only logged). -/
theorem C4_theorem :
    ∀ (T : Type) (b : Backend T) (s s1 : T) (env : Env) (db : DB) (n d : Str)
      (fm : FileMetadata),
      b.construct s = .ok s1 →
      env.lookupErr = none →
      env.rowDeleteErr = none →
      db.filter (anyPred n d) = [fm] →
      (hard_delete_file b s env db n d).result = .DELETED
      ∧ (hard_delete_file b s env db n d).db = db.filter (fun r => r.file_id != fm.file_id)
      ∧ (hard_delete_file b s env db n d).events
          = [.construct, .dbCommitDelete fm.file_id,
              .storageDeleteAttempt [physicalName n fm.version, d]] := by
  intro T b s s1 env db n d fm hc henv henv2 hfil
  exact hard_shape_found T b s s1 env db n d fm hc henv henv2 hfil

/-- C4, witness: hard delete of the soft-deleted row `exDeadRow` with the
local backend whose directory holds no such object, so the storage delete
fails — the result is still `DELETED` and the row stays removed. -/
theorem C4_witness :
    (hard_delete_file bktB ["bucket".toList] envOk [exDeadRow] "a.txt".toList []).result
      = .DELETED
    ∧ (hard_delete_file bktB ["bucket".toList] envOk [exDeadRow] "a.txt".toList []).db
      = [exDeadRow].filter (fun r => r.file_id != exDeadRow.file_id)
    ∧ (hard_delete_file bktB ["bucket".toList] envOk [exDeadRow] "a.txt".toList []).events
      = [.construct, .dbCommitDelete exDeadRow.file_id,
          .storageDeleteAttempt [physicalName "a.txt".toList exDeadRow.version, []]] :=
  C4_theorem (List Str) bktB ["bucket".toList] ["bucket".toList] envOk [exDeadRow]
    "a.txt".toList [] exDeadRow (by decide) rfl rfl (by decide)

/-- C5: when the backend upload fails, the workflow raises
`Failed to upload file` immediately: the table is untouched, the backend
state is unchanged, and the only operation attempted was the upload — no
metadata lookup, update or insert is committed and no compensating storage
delete is attempted. -/
theorem C5_theorem :
    ∀ (T : Type) (b : Backend T) (s : T) (env : Env) (db : DB) (now : Nat)
      (name : Str) (file : FileModel) (dest tags descr : Str) (e : Str),
      b.uploadOp (physicalName name now) file (stripSlash dest) s = .error e →
      upload_file_to_storage b s env db now name file dest tags descr
        = ⟨.error (.uploadFailed e), db, s,
            [.storageUpload (physicalName name now) (stripSlash dest)]⟩ := by
  intro T b s env db now name file dest tags descr e hup
  exact upload_shape_uploadErr T b s env db now name file dest tags descr e hup

/-- A backend whose upload always fails with `disk full`. -/
def failB : Backend Unit where
  construct := fun s => .ok s
  uploadOp := fun _ _ _ _ => .error "disk full".toList
  deleteOp := fun _ _ s => .ok s

/-- C5, witness: `C5_theorem` at the always-failing backend over the table
holding `exDeadRow`. -/
theorem C5_witness :
    upload_file_to_storage failB () envOk [exDeadRow] 8 "a.txt".toList file0 [] [] []
      = ⟨.error (.uploadFailed "disk full".toList), [exDeadRow], (),
          [.storageUpload "a_8.txt".toList []]⟩ :=
  C5_theorem Unit failB () envOk [exDeadRow] 8 "a.txt".toList file0 [] [] []
    "disk full".toList rfl

/-- Hard delete of a missing name on an empty table, with the local backend
rooted at a directory that does not exist yet. -/
def C6run : HardDeleteOutcome (List Str) :=
  hard_delete_file bktB [] envOk [] "a.txt".toList []

/-- C6, counterexample to the claim as stated: hardDelete of an absent pair
does return `FILE_NOT_FOUND` and attempts no object delete, but the storage
backend is constructed before the lookup (`delete_service.py` line 82), and
that construction creates the missing local base directory — the file
system changes from `[]` to `[bucket]`, a backend side effect the claim
rules out. -/
theorem C6_counterexample :
    C6run.result = .FILE_NOT_FOUND
    ∧ C6run.db = []
    ∧ C6run.store = ["bucket".toList]
    ∧ C6run.store ≠ ([] : List Str)
    ∧ C6run.events = [.construct] := by
  refine ⟨by decide, by decide, by decide, by decide, by decide⟩

/-- C6 (amended): hardDelete of a pair with no metadata row returns
`NotFound`, leaves the table unchanged and issues no object delete and no
upload; however the backend is constructed first, so the construction side
effect (local directory creation, remote bucket head/create) does occur —
the event log is exactly `[construct]` and the backend state is whatever
construction produced. -/
theorem C6_theorem :
    ∀ (T : Type) (b : Backend T) (s s1 : T) (env : Env) (db : DB) (n d : Str),
      b.construct s = .ok s1 →
      env.lookupErr = none →
      db.filter (anyPred n d) = [] →
      hard_delete_file b s env db n d = ⟨.FILE_NOT_FOUND, db, s1, [.construct]⟩ := by
  intro T b s s1 env db n d hc henv hfil
  exact hard_shape_notFound T b s s1 env db n d hc henv hfil

/-- C6, witness: `C6_theorem` at the concrete empty table and fresh local
file system: the result is `NotFound` while the bucket directory has been
created. -/
theorem C6_witness :
    hard_delete_file bktB [] envOk [] "b.txt".toList []
      = ⟨.FILE_NOT_FOUND, [], ["bucket".toList], [.construct]⟩ :=
  C6_theorem (List Str) bktB [] ["bucket".toList] envOk [] "b.txt".toList []
    (by decide) rfl (by decide)

/-- C7: softDelete returns `NotFound` when no active row exists, flips the
found row's `is_deleted` flag (refreshing only `updated_at` besides it) via
repository update and returns `Deleted`, and returns `Failed` when the
lookup or the persistence raises; in every case its event log holds at most
the one committed row update — never a storage-backend call of any kind. -/
theorem C7_theorem :
    ∀ (env : Env) (db : DB) (now : Nat) (n d : Str),
      ((soft_delete_file env db now n d).events = []
        ∨ ∃ i : Nat, (soft_delete_file env db now n d).events = [.dbCommitUpdate i])
      ∧ (∀ e : Str, env.lookupErr = some e →
          soft_delete_file env db now n d = ⟨.ERROR, db, []⟩)
      ∧ (env.lookupErr = none → db.filter (activePred n d) = [] →
          soft_delete_file env db now n d = ⟨.FILE_NOT_FOUND, db, []⟩)
      ∧ (∀ fm : FileMetadata, env.lookupErr = none → env.persistErr = none →
          db.filter (activePred n d) = [fm] →
          soft_delete_file env db now n d
            = ⟨.DELETED,
                db.map (fun r => if r.file_id == fm.file_id then { fm with is_deleted := true, updated_at := now } else r),
                [.dbCommitUpdate fm.file_id]⟩)
      ∧ (∀ (fm : FileMetadata) (e : Str), env.lookupErr = none →
          env.persistErr = some e → db.filter (activePred n d) = [fm] →
          soft_delete_file env db now n d = ⟨.ERROR, db, []⟩) := by
  intro env db now n d
  refine ⟨?_, ?_, ?_, ?_, ?_⟩
  · simp only [soft_delete_file]
    cases get_file_by_name_and_destination env db n d with
    | error e => exact Or.inl rfl
    | ok o =>
      cases o with
      | none => exact Or.inl rfl
      | some fm =>
        simp only []
        cases update env db { fm with is_deleted := true } now with
        | error e => exact Or.inl rfl
        | ok p =>
          obtain ⟨db2, fm2⟩ := p
          exact Or.inr ⟨fm2.file_id, rfl⟩
  · intro e h
    exact soft_shape_lookupErr env db now n d e h
  · intro henv hfil
    exact soft_shape_notFound env db now n d henv hfil
  · intro fm henv henv2 hfil
    exact soft_shape_deleted env db now n d fm henv henv2 hfil
  · intro fm e henv henv2 hfil
    exact soft_shape_persistErr env db now n d e fm henv henv2 hfil

/-- C7, witness: the `Deleted` branch of `C7_theorem` on the one-row table
left by `exUp1`. -/
theorem C7_witness :
    soft_delete_file envOk exUp1.db 2 "a.txt".toList []
      = ⟨.DELETED,
          exUp1.db.map (fun r => if r.file_id == exDeadRow.file_id then { exDeadRow with is_deleted := true, updated_at := 2 } else r),
          [.dbCommitUpdate exDeadRow.file_id]⟩ := by
  have h := (C7_theorem envOk exUp1.db 2 "a.txt".toList []).2.2.2.1
    ⟨1, "a.txt".toList, "bucket/a_1.txt".toList, 4, "text/plain".toList, [], 1, [], [],
      "system".toList, false, 1, 1⟩
    rfl rfl (by decide)
  exact h.trans (by decide)

/-- The WHERE-clause pipeline of `get_list`: active rows, then the optional
tag and destination filters. -/
def listFiltered (tag dest : Str) (db : DB) : List FileMetadata :=
  let rows := db.filter (fun r => !r.is_deleted)
  let rows := if tag.isEmpty then rows
    else rows.filter (fun r => likeMatch ('%' :: (tag ++ ['%'])) r.tags)
  if dest.isEmpty then rows
  else rows.filter (fun r =>
    r.destination == dest || likeMatch (dest ++ ['/', '%']) r.destination)

theorem get_list_eq (env : Env) (obn obs obu : Bool) (tag dest : Str) (db : DB)
    (henv : env.lookupErr = none) :
    get_list env obn obs obu tag dest db
      = .ok (if obn then sortByLe (fun a b => strLe a.file_name b.file_name)
              (listFiltered tag dest db)
          else if obs then sortByLe (fun a b => Nat.ble a.file_size b.file_size)
              (listFiltered tag dest db)
          else if obu then sortByLe (fun a b => Nat.ble b.updated_at a.updated_at)
              (listFiltered tag dest db)
          else listFiltered tag dest db) := by
  cases obn <;> cases obs <;> cases obu <;> simp [get_list, listFiltered, henv]

theorem mem_listFiltered (tag dest : Str) (db : DB) (r : FileMetadata)
    (hr : r ∈ listFiltered tag dest db) :
    r.is_deleted = false
    ∧ (tag ≠ [] → likeMatch ('%' :: (tag ++ ['%'])) r.tags = true)
    ∧ (dest ≠ [] →
        (r.destination = dest ∨ likeMatch (dest ++ ['/', '%']) r.destination = true)) := by
  by_cases hd : dest.isEmpty = true <;> by_cases ht : tag.isEmpty = true <;>
    simp only [listFiltered, hd, ht, if_true, if_false] at hr
  · obtain ⟨hbase, hdel⟩ := List.mem_filter.mp hr
    refine ⟨by simpa using hdel, ?_, ?_⟩
    · intro htag
      exact absurd (List.isEmpty_iff.mp ht) htag
    · intro hdest
      exact absurd (List.isEmpty_iff.mp hd) hdest
  · obtain ⟨hbase, htagp⟩ := List.mem_filter.mp hr
    obtain ⟨hdb, hdel⟩ := List.mem_filter.mp hbase
    refine ⟨by simpa using hdel, fun _ => htagp, ?_⟩
    · intro hdest
      exact absurd (List.isEmpty_iff.mp hd) hdest
  · obtain ⟨hbase, hdestp⟩ := List.mem_filter.mp hr
    obtain ⟨hdb, hdel⟩ := List.mem_filter.mp hbase
    refine ⟨by simpa using hdel, ?_, ?_⟩
    · intro htag
      exact absurd (List.isEmpty_iff.mp ht) htag
    · intro _
      simpa using hdestp
  · obtain ⟨hbase, hdestp⟩ := List.mem_filter.mp hr
    obtain ⟨hbase2, htagp⟩ := List.mem_filter.mp hbase
    obtain ⟨hdb, hdel⟩ := List.mem_filter.mp hbase2
    refine ⟨by simpa using hdel, fun _ => htagp, ?_⟩
    · intro _
      simpa using hdestp


/-- The row used in the claim C8 counterexample: an active row whose
destination is `ab/c`. -/
def C8row : FileMetadata :=
  ⟨1, "f".toList, "p".toList, 1, "t".toList, "ab/c".toList, 1, [], [],
    "system".toList, false, 0, 0⟩

/-- C8, counterexample to the claim as stated: with the destination filter
`a%` (a legal string containing the SQL wildcard), `get_list` returns the
row whose destination is `ab/c` — the `LIKE` pattern matches — yet that
destination neither equals the filter nor starts with the filter followed
by `/`. -/
theorem C8_counterexample :
    get_list envOk false false false [] "a%".toList [C8row] = .ok [C8row]
    ∧ C8row.destination ≠ "a%".toList
    ∧ strStartsWith ("a%".toList ++ ['/']) C8row.destination = false := by
  refine ⟨by decide, by decide, by decide⟩

/-- C8 (amended): `get_list` returns only non-soft-deleted rows; at most
one ordering key is applied, with precedence name, then size, then
updated-at descending; the tag filter keeps only rows whose tags match the
SQL `LIKE` containment pattern built from the tag; the destination filter
keeps only rows whose destination equals the filter or matches the `LIKE`
pattern of the filter followed by a slash and a percent wildcard — and for
every filter containing no `%` or `_` wildcard, that pattern condition is
exactly "starts with the filter followed by `/`". -/
theorem C8_theorem :
    (∀ (env : Env) (db : DB) (obn obs obu : Bool) (tag dest : Str)
        (L : List FileMetadata) (r : FileMetadata),
        get_list env obn obs obu tag dest db = .ok L → r ∈ L →
        r.is_deleted = false
        ∧ (tag ≠ [] → likeMatch ('%' :: (tag ++ ['%'])) r.tags = true)
        ∧ (dest ≠ [] →
            (r.destination = dest ∨ likeMatch (dest ++ ['/', '%']) r.destination = true)))
    ∧ (∀ (env : Env) (db : DB) (obn obs obu : Bool) (tag dest : Str)
        (L : List FileMetadata),
        get_list env obn obs obu tag dest db = .ok L →
        (obn = true → SortedBy (fun a b => strLe a.file_name b.file_name) L)
        ∧ (obn = false → obs = true →
            SortedBy (fun a b => Nat.ble a.file_size b.file_size) L)
        ∧ (obn = false → obs = false → obu = true →
            SortedBy (fun a b => Nat.ble b.updated_at a.updated_at) L))
    ∧ (∀ dest s : Str, (∀ c ∈ dest, c ≠ '%' ∧ c ≠ '_') →
        likeMatch (dest ++ ['/', '%']) s = strStartsWith (dest ++ ['/']) s) := by
  refine ⟨?_, ?_, ?_⟩
  · intro env db obn obs obu tag dest L r h hr
    cases henv : env.lookupErr with
    | some e => simp [get_list, henv] at h
    | none =>
      rw [get_list_eq env obn obs obu tag dest db henv] at h
      injection h with h2
      rw [← h2] at hr
      have hmem : r ∈ listFiltered tag dest db := by
        cases obn <;> cases obs <;> cases obu <;> simpa [mem_sortByLe] using hr
      exact mem_listFiltered tag dest db r hmem
  · intro env db obn obs obu tag dest L h
    cases henv : env.lookupErr with
    | some e => simp [get_list, henv] at h
    | none =>
      rw [get_list_eq env obn obs obu tag dest db henv] at h
      injection h with h2
      refine ⟨?_, ?_, ?_⟩
      · intro hobn
        subst hobn
        simp only [if_true] at h2
        rw [← h2]
        exact sortedBy_sortByLe (fun a b : FileMetadata => strLe a.file_name b.file_name)
          (fun a b : FileMetadata => strLe_total a.file_name b.file_name)
          (fun (a b c : FileMetadata) hab hbc => strLe_trans a.file_name b.file_name c.file_name hab hbc) _
      · intro hobn hobs
        subst hobn
        subst hobs
        simp only [Bool.false_eq_true, if_false, if_true] at h2
        rw [← h2]
        exact sortedBy_sortByLe (fun a b : FileMetadata => Nat.ble a.file_size b.file_size)
          (fun a b : FileMetadata => bleSize_total a.file_size b.file_size)
          (fun (a b c : FileMetadata) hab hbc => bleSize_trans a.file_size b.file_size c.file_size hab hbc) _
      · intro hobn hobs hobu
        subst hobn
        subst hobs
        subst hobu
        simp only [Bool.false_eq_true, if_false, if_true] at h2
        rw [← h2]
        exact sortedBy_sortByLe (fun a b : FileMetadata => Nat.ble b.updated_at a.updated_at)
          (fun a b : FileMetadata => bleSize_total b.updated_at a.updated_at)
          (fun (a b c : FileMetadata) hab hbc => bleSize_trans c.updated_at b.updated_at a.updated_at hbc hab) _
  · intro dest s h
    have h2 : ∀ c ∈ dest ++ ['/'], c ≠ '%' ∧ c ≠ '_' := by
      intro c hc
      rcases List.mem_append.mp hc with hc1 | hc2
      · exact h c hc1
      · have : c = '/' := by simpa using hc2
        subst this
        exact ⟨by decide, by decide⟩
    have h3 := likeMatch_noWild_percent (dest ++ ['/']) h2 s
    rw [List.append_assoc] at h3
    exact h3

/-- C8, witness: the filter soundness of `C8_theorem` at the concrete
one-row table and destination filter `ab`. -/
theorem C8_witness :
    C8row.is_deleted = false
    ∧ (([] : Str) ≠ [] → likeMatch ('%' :: (([] : Str) ++ ['%'])) C8row.tags = true)
    ∧ ("ab".toList ≠ [] →
        (C8row.destination = "ab".toList
          ∨ likeMatch ("ab".toList ++ ['/', '%']) C8row.destination = true)) :=
  C8_theorem.1 envOk [C8row] false false false [] "ab".toList [C8row] C8row
    (by decide) (by decide)

/-- C9 (amended): when exactly one row is stored for the pair, a
soft-deleted row is excluded from the active lookup and from the unfiltered
listing but is still returned by the hard-delete lookup, and an active row
is returned by both lookups and listed; when several rows share the pair
(which the workflows can produce after soft-delete and re-upload), the
one-result hard-delete lookup raises `MultipleResultsFound` instead of
returning a row, as `C9_counterexample` shows. -/
theorem C9_theorem :
    ∀ (env : Env) (db : DB) (n d : Str) (r : FileMetadata) (L : List FileMetadata),
      env.lookupErr = none →
      db.filter (anyPred n d) = [r] →
      get_list env false false false [] [] db = .ok L →
      (get_file_by_name_and_destination_for_hard_delete env db n d = .ok (some r))
      ∧ (r.is_deleted = true →
          get_file_by_name_and_destination env db n d = .ok none ∧ r ∉ L)
      ∧ (r.is_deleted = false →
          get_file_by_name_and_destination env db n d = .ok (some r) ∧ r ∈ L) := by
  intro env db n d r L henv hfil hL
  have hL2 : L = db.filter (fun x => !x.is_deleted) := by
    rw [get_list_eq env false false false [] [] db henv] at hL
    simp only [listFiltered, List.isEmpty_nil, if_true, if_false, Bool.false_eq_true] at hL
    injection hL with h2
    exact h2.symm
  have hactive : db.filter (activePred n d) = [r].filter (fun x => !x.is_deleted) := by
    rw [filter_active_eq n d db, hfil]
  have hrdb : r ∈ db := by
    apply List.mem_of_mem_filter (p := anyPred n d)
    rw [hfil]
    exact List.mem_cons_self r []
  refine ⟨?_, ?_, ?_⟩
  · rw [get_any_eval env db n d henv, hfil]
    rfl
  · intro hdel
    constructor
    · rw [get_active_eval env db n d henv, hactive]
      simp [hdel, scalarOneOrNone]
    · rw [hL2]
      intro hmem
      have h3 := (List.mem_filter.mp hmem).2
      rw [hdel] at h3
      simp at h3
  · intro hdel
    constructor
    · rw [get_active_eval env db n d henv, hactive]
      simp [hdel, scalarOneOrNone]
    · rw [hL2]
      exact List.mem_filter.mpr ⟨hrdb, by simp [hdel]⟩

/-- C9, witness: `C9_theorem` on the one-row table holding only the
soft-deleted `exDeadRow`. -/
theorem C9_witness :
    (get_file_by_name_and_destination_for_hard_delete envOk [exDeadRow] "a.txt".toList []
      = .ok (some exDeadRow))
    ∧ (exDeadRow.is_deleted = true →
        get_file_by_name_and_destination envOk [exDeadRow] "a.txt".toList [] = .ok none
        ∧ exDeadRow ∉ ([] : List FileMetadata))
    ∧ (exDeadRow.is_deleted = false →
        get_file_by_name_and_destination envOk [exDeadRow] "a.txt".toList []
          = .ok (some exDeadRow)
        ∧ exDeadRow ∈ ([] : List FileMetadata)) :=
  C9_theorem envOk [exDeadRow] "a.txt".toList [] exDeadRow [] rfl (by decide) (by decide)

/-- C10: the upload workflow strips leading and trailing `/` from the
destination before storing and looking up metadata, while softDelete and
hardDelete pass the raw destination through; so after an upload under a raw
destination with a leading or trailing slash, the table holds a row under
the stripped destination, yet a soft or hard delete invoked with the same
raw string returns `NotFound` and deletes nothing. -/
theorem C10_theorem :
    ∀ (T T2 : Type) (b : Backend T) (s s1 : T) (b2 : Backend T2) (s2 s3 : T2)
      (env env2 : Env) (db : DB) (now now2 : Nat) (n : Str) (file : FileModel)
      (d tags descr : Str) (du : StorageUploadResponseModel),
      d.head? = some '/' ∨ d.getLast? = some '/' →
      db.filter (anyPred n d) = [] →
      env.lookupErr = none → env.persistErr = none →
      b.uploadOp (physicalName n now) file (stripSlash d) s = .ok (du, s1) →
      (db.filter (activePred n (stripSlash d))).length ≤ 1 →
      env2.lookupErr = none →
      b2.construct s2 = .ok s3 →
      ((upload_file_to_storage b s env db now n file d tags descr).db.filter
          (anyPred n (stripSlash d)) ≠ []
      ∧ soft_delete_file env2 (upload_file_to_storage b s env db now n file d tags descr).db
          now2 n d
        = ⟨.FILE_NOT_FOUND,
            (upload_file_to_storage b s env db now n file d tags descr).db, []⟩
      ∧ hard_delete_file b2 s2 env2
          (upload_file_to_storage b s env db now n file d tags descr).db n d
        = ⟨.FILE_NOT_FOUND,
            (upload_file_to_storage b s env db now n file d tags descr).db, s3,
            [.construct]⟩) := by
  intro T T2 b s s1 b2 s2 s3 env env2 db now now2 n file d tags descr du
    hslash hfree henv henv2 hup hone henv3 hc
  have hne : stripSlash d ≠ d := stripSlash_ne_self d hslash
  have hfree2 : ∀ rr ∈ db, anyPred n d rr = false := by
    intro rr hrr
    have h3 := List.filter_eq_nil_iff.mp hfree rr hrr
    simpa using h3
  suffices hS : ∃ X : DB,
      (upload_file_to_storage b s env db now n file d tags descr).db = X
      ∧ X.filter (anyPred n d) = []
      ∧ X.filter (anyPred n (stripSlash d)) ≠ [] by
    obtain ⟨X, hUdb, hframe, hne2⟩ := hS
    refine ⟨?_, ?_, ?_⟩
    · rw [hUdb]
      exact hne2
    · rw [hUdb]
      apply soft_shape_notFound env2 X now2 n d henv3
      rw [filter_active_eq n d X, hframe]
      rfl
    · rw [hUdb]
      exact hard_shape_notFound T2 b2 s2 s3 env2 X n d hc henv3 hframe
  cases hfil : db.filter (activePred n (stripSlash d)) with
  | nil =>
    have hU := upload_shape_insert T b s s1 env db now n file d tags descr du
      henv henv2 hup hfil
    refine ⟨db ++ [⟨maxId db + 1, n, du.file_path, du.file_size, du.file_type,
      stripSlash d, now, tags, descr, "system".toList, false, now, now⟩], ?_, ?_, ?_⟩
    · rw [hU]
    · rw [List.filter_append, hfree]
      have hrow : anyPred n d (⟨maxId db + 1, n, du.file_path, du.file_size, du.file_type,
          stripSlash d, now, tags, descr, "system".toList, false, now, now⟩ : FileMetadata)
          = false := by
        simp [anyPred, beq_eq_false_iff_ne.mpr hne]
      simp only [List.filter_cons, hrow, Bool.false_eq_true, if_false, List.filter_nil,
        List.nil_append]
    · apply List.ne_nil_of_mem (a := (⟨maxId db + 1, n, du.file_path, du.file_size,
        du.file_type, stripSlash d, now, tags, descr, "system".toList, false, now,
        now⟩ : FileMetadata))
      apply List.mem_filter.mpr
      refine ⟨List.mem_append.mpr (Or.inr (List.mem_cons_self _ [])), ?_⟩
      simp [anyPred]
  | cons fm rest =>
    have hrest : rest = [] := by
      have h4 := hone
      rw [hfil] at h4
      cases rest with
      | nil => rfl
      | cons a t => simp [List.length_cons] at h4
    subst hrest
    obtain ⟨hmemfm, hnamefm, hdestfm, hdelfm⟩ := of_filter_active_single db _ _ fm hfil
    have hU := upload_shape_update T b s s1 env db now n file d tags descr du fm
      henv henv2 hup hfil
    refine ⟨db.map (fun r => if r.file_id == fm.file_id then { fm with file_path := du.file_path, version := now, file_size := du.file_size, file_type := du.file_type, tags := tags, description := descr, updated_at := now } else r), ?_, ?_, ?_⟩
    · rw [hU]
    · apply List.filter_eq_nil_iff.mpr
      intro rr hrr
      obtain ⟨r0, hr0, hfr⟩ := List.mem_map.mp hrr
      rw [← hfr]
      by_cases hb : (r0.file_id == fm.file_id) = true
      · simp only [hb, if_true]
        simp [anyPred, hdestfm, beq_eq_false_iff_ne.mpr hne]
      · simp only [hb, if_false]
        have h5 := hfree2 r0 hr0
        simp [h5]
    · apply List.ne_nil_of_mem
        (a := ({ fm with file_path := du.file_path, version := now, file_size := du.file_size, file_type := du.file_type, tags := tags, description := descr, updated_at := now } : FileMetadata))
      apply List.mem_filter.mpr
      refine ⟨List.mem_map.mpr ⟨fm, hmemfm, by simp⟩, ?_⟩
      simp [anyPred, hnamefm, hdestfm]

/-- C10, witness: `C10_theorem` at the concrete upload of `doc.txt` under
the raw destination `/q1/` followed by a soft and a hard delete with the
same raw string. -/
theorem C10_witness :
    (upload_file_to_storage bktB ["bucket".toList] envOk [] 1000 "doc.txt".toList file0
        "/q1/".toList [] []).db.filter
        (anyPred "doc.txt".toList (stripSlash "/q1/".toList)) ≠ []
    ∧ soft_delete_file envOk
        (upload_file_to_storage bktB ["bucket".toList] envOk [] 1000 "doc.txt".toList file0
          "/q1/".toList [] []).db 7 "doc.txt".toList "/q1/".toList
      = ⟨.FILE_NOT_FOUND,
          (upload_file_to_storage bktB ["bucket".toList] envOk [] 1000 "doc.txt".toList file0
            "/q1/".toList [] []).db, []⟩
    ∧ hard_delete_file bktB ["bucket".toList] envOk
        (upload_file_to_storage bktB ["bucket".toList] envOk [] 1000 "doc.txt".toList file0
          "/q1/".toList [] []).db "doc.txt".toList "/q1/".toList
      = ⟨.FILE_NOT_FOUND,
          (upload_file_to_storage bktB ["bucket".toList] envOk [] 1000 "doc.txt".toList file0
            "/q1/".toList [] []).db, ["bucket".toList], [.construct]⟩ :=
  C10_theorem (List Str) (List Str) bktB ["bucket".toList]
    ("bucket/q1/doc_1000.txt".toList :: ["bucket".toList]) bktB ["bucket".toList]
    ["bucket".toList] envOk envOk [] 1000 7 "doc.txt".toList file0 "/q1/".toList [] []
    ⟨"bucket/q1/doc_1000.txt".toList, 4, "text/plain".toList⟩
    (by decide) rfl rfl rfl (by decide) (by decide) rfl (by decide)
